import Mathlib

/-!
# Verification of the `merkle_tree` repository against its specification

Shallow embedding of `src/merkle_tree.py`. Byte strings (`bytes`) are
modelled as `List Nat` (one entry per byte), a hash function as
`List Nat → List Nat`. Python's `Optional[Node]` is modelled by folding the
`None` case into the `Node` type itself as the constructor `Node.null`, so
every Python `Node` value is a `Node.mk` and a Python `None` child is
`Node.null`. Fallible Python code (the `assert` in `bytes_xor`, which raises
`AssertionError` on unequal lengths, and the tree builder, which recurses
forever on an empty list) is modelled with `Option`: `none` stands for the
abnormal outcome.
-/

namespace MerkleTree

/-- A hash function `bytes -> bytes` (`HashFn` in the source). -/
abbrev HashFn := List Nat → List Nat

/-- Byte-wise exclusive or of two byte strings (the body of `bytes_xor`
after its assert: `bytes([_a ^ _b for _a, _b in zip(a, b)])`). -/
def xorBytes (a b : List Nat) : List Nat :=
  List.zipWith (fun x y => x ^^^ y) a b

/-- `bytes_xor(a, b)` from the source: asserts `len(a) == len(b)` (an
`AssertionError`, modelled as `none`) and returns the byte-wise xor. -/
def bytes_xor (a b : List Nat) : Option (List Nat) :=
  if a.length = b.length then some (xorBytes a b) else none

/-- `verify_proof(root_hash, block_hash, proof, hash_fn)` from the source:
starting from `block_hash`, fold the proof entries in reverse order with
`current = hash_fn(bytes_xor(current, sibling))`, then compare with
`root_hash`.  A failing `bytes_xor` assert propagates as `none`. -/
def verify_proof (root_hash block_hash : List Nat) (proof : List (List Nat))
    (hash_fn : HashFn) : Option Bool :=
  (proof.reverse.foldlM (fun current sibling =>
      (bytes_xor current sibling).map hash_fn) block_hash).map
    (fun current => decide (current = root_hash))

/-- The `Node` dataclass: children, hash value, debug content, and the
`is_copied` duplicate marker.  `Node.null` stands for Python's `None` in a
child position. -/
inductive Node where
  | null : Node
  | mk (left right : Node) (value content : List Nat) (is_copied : Bool) : Node
  deriving DecidableEq, Repr

namespace Node

/-- The `left` field (`null` is Python's `None`, which has no fields;
the `null` case is never consulted by the embedded code). -/
def left : Node → Node
  | .null => .null
  | .mk l _ _ _ _ => l

/-- The `right` field. -/
def right : Node → Node
  | .null => .null
  | .mk _ r _ _ _ => r

/-- The `value` field (hash value of the node). -/
def value : Node → List Nat
  | .null => []
  | .mk _ _ v _ _ => v

/-- The `content` field (debug content of the node). -/
def content : Node → List Nat
  | .null => []
  | .mk _ _ _ c _ => c

/-- The `is_copied` field (duplicate marker). -/
def is_copied : Node → Bool
  | .null => false
  | .mk _ _ _ _ b => b

/-- `Node.copy`: `Node(self.left, self.right, self.value, self.content, True)`. -/
def copy : Node → Node
  | .null => .null
  | .mk l r v c _ => .mk l r v c true

end Node

/-- The in-place padding step at the head of `_buildTreeRec`:
`if len(nodes) % 2 == 1: nodes.append(nodes[-1].copy())`. -/
def pad (nodes : List Node) : List Node :=
  if nodes.length % 2 = 1 then nodes ++ [(nodes.getLastD .null).copy] else nodes

/-- `MerkleTree._buildTreeRec(nodes)`.  On the empty list the Python code
recurses forever (a crash by `RecursionError`); the spec rules the empty
input out of scope, and the model returns `none` there.  Otherwise: pad an
odd-sized group with a copy of its last element, combine directly when the
(padded) group has exactly two nodes, and otherwise split at the midpoint,
build both halves and combine their roots. -/
def buildTreeRec (hash_fn : HashFn) (nodes : List Node) : Option Node :=
  if h0 : nodes.length = 0 then none
  else
    if h2 : (pad nodes).length = 2 then
      (bytes_xor ((pad nodes).getD 0 .null).value ((pad nodes).getD 1 .null).value).map
        fun v => Node.mk ((pad nodes).getD 0 .null) ((pad nodes).getD 1 .null) (hash_fn v)
          (((pad nodes).getD 0 .null).content ++ ((pad nodes).getD 1 .null).content) false
    else
      (buildTreeRec hash_fn ((pad nodes).take ((pad nodes).length / 2))).bind fun lt =>
        (buildTreeRec hash_fn ((pad nodes).drop ((pad nodes).length / 2))).bind fun rt =>
          (bytes_xor lt.value rt.value).map fun v =>
            Node.mk lt rt (hash_fn v) (lt.content ++ rt.content) false
termination_by nodes.length
decreasing_by
  · have hp : (pad nodes).length = if nodes.length % 2 = 1 then nodes.length + 1
        else nodes.length := by
      unfold pad; split <;> simp
    simp only [List.length_take, List.length_drop]
    split at hp <;> omega
  · have hp : (pad nodes).length = if nodes.length % 2 = 1 then nodes.length + 1
        else nodes.length := by
      unfold pad; split <;> simp
    simp only [List.length_take, List.length_drop]
    split at hp <;> omega

/-- `MerkleTree._buildTree(values)`: map every block to a leaf
`Node(None, None, hash_fn(e), e)` and reduce with `_buildTreeRec`. -/
def buildTree (hash_fn : HashFn) (values : List (List Nat)) : Option Node :=
  buildTreeRec hash_fn (values.map fun e => Node.mk .null .null (hash_fn e) e false)

/-- The `root` property of `MerkleTree`: returns `self._root.copy()`. -/
def root (t : Node) : Node := t.copy

/-- `MerkleTree._get_location_rec(node, block_hash, path)`: depth-first
search for a non-copied node whose value is `block_hash`, left subtree
before right, recording `0` for a left step and `1` for a right step. -/
def get_location_rec (node : Node) (block_hash : List Nat) (path : List Nat) :
    Option (List Nat) :=
  match node with
  | .null => none
  | .mk l r v _ d =>
    if v = block_hash ∧ d = false then some path
    else
      match get_location_rec l block_hash (path ++ [0]) with
      | some left_path => some left_path
      | none =>
        match get_location_rec r block_hash (path ++ [1]) with
        | some right_path => some right_path
        | none => none

/-- `MerkleTree.get_location(block_hash)`. -/
def get_location (t : Node) (block_hash : List Nat) : Option (List Nat) :=
  get_location_rec t block_hash []

/-- `MerkleTree._get_proof_rec(node, location, index, proof)`: walk the
direction bits, recording the sibling of each branch taken; `none` when
neither guard accepts the next bit. -/
def get_proof_rec (node : Node) (location : List Nat) (index : Nat)
    (proof : List (List Nat)) : Option (List (List Nat)) :=
  match node with
  | .null => some proof
  | .mk l r _ _ _ =>
    if location.length ≤ index then some proof
    else if r ≠ .null ∧ location.getD index 0 = 0 then
      get_proof_rec l location (index + 1) (proof ++ [r.value])
    else if l ≠ .null ∧ location.getD index 0 = 1 then
      get_proof_rec r location (index + 1) (proof ++ [l.value])
    else none

/-- `MerkleTree.get_proof(block_hash)`: locate, then walk. -/
def get_proof (t : Node) (block_hash : List Nat) : Option (List (List Nat)) :=
  match get_location t block_hash with
  | none => none
  | some location => get_proof_rec t location 0 []

/-! ## Specification-side helper definitions (not from the source) -/

/-- All `mk` nodes of a tree, the node itself first, then the left and the
right subtree. -/
def Node.allNodes : Node → List Node
  | .null => []
  | .mk l r v c d => .mk l r v c d :: (l.allNodes ++ r.allNodes)

/-- The leaves of a tree: `mk` nodes with two `null` children. -/
def Node.leaves : Node → List Node
  | .null => []
  | .mk l r v c d =>
    if l = .null ∧ r = .null then [.mk l r v c d] else l.leaves ++ r.leaves

/-- The values of internal (non-leaf) nodes of a tree. -/
def internalValues (t : Node) : List (List Nat) :=
  (t.allNodes.filter fun m => decide ¬(m.left = .null ∧ m.right = .null)).map
    Node.value

/-- Follow a root-to-node direction path: bit `0` descends left, any other
bit descends right. -/
def follow : Node → List Nat → Node
  | t, [] => t
  | .null, _ :: _ => .null
  | .mk l r _ _ _, bit :: rest => follow (if bit = 0 then l else r) rest

/-- The sibling values recorded along a direction path, top-down. -/
def siblings : Node → List Nat → List (List Nat)
  | _, [] => []
  | .null, _ :: _ => []
  | .mk l r _ _ _, bit :: rest =>
    if bit = 0 then r.value :: siblings l rest else l.value :: siblings r rest

/-- Structural well-formedness established by the builder: every node value
has the fixed hash length `L`, and every node either is a leaf or has two
non-`null` children combined by hash-of-xor with concatenated contents. -/
def wfNode (hash_fn : HashFn) (L : Nat) : Node → Prop
  | .null => True
  | .mk l r v c _ =>
    v.length = L ∧
    ((l = .null ∧ r = .null) ∨
      (l ≠ .null ∧ r ≠ .null ∧ v = hash_fn (xorBytes l.value r.value) ∧
        c = l.content ++ r.content)) ∧
    wfNode hash_fn L l ∧ wfNode hash_fn L r

/-- The fixed-width binary representation of `i` with `k` bits, most
significant bit first, as a list of direction bits. -/
def pathBits : Nat → Nat → List Nat
  | 0, _ => []
  | k + 1, i => i / 2 ^ k :: pathBits k (i % 2 ^ k)

/-- A leaf node produced by `_buildTree` against a hash of output length
`L`: no children, a real node, value of the hash length. -/
def isLeafNode (L : Nat) (n : Node) : Prop :=
  n.left = .null ∧ n.right = .null ∧ n ≠ .null ∧ n.value.length = L

/-- A concrete hash function with output length 1, used for the concrete
instances below. -/
def exampleHash : HashFn := fun l => [(l.headD 0 + 1) % 256]

/-- The tree `exampleHash` builds from the single block `[5]`: the lone
leaf is padded with a copy marked `is_copied`. -/
def tree1 : Node :=
  .mk (.mk .null .null [6] [5] false) (.mk .null .null [6] [5] true) [1] [5, 5] false

/-- The tree `exampleHash` builds from the two blocks `[0]`, `[1]`. -/
def tree2 : Node :=
  .mk (.mk .null .null [1] [0] false) (.mk .null .null [2] [1] false) [4] [0, 1] false

/-- The tree `exampleHash` builds from the three blocks `[0]`, `[1]`, `[2]`:
the padded fourth leaf is a copy of the third. -/
def tree3 : Node :=
  .mk (.mk (.mk .null .null [1] [0] false) (.mk .null .null [2] [1] false) [4] [0, 1] false)
      (.mk (.mk .null .null [3] [2] false) (.mk .null .null [3] [2] true) [1] [2, 2] false)
      [6] [0, 1, 2, 2] false

/-- Three concrete leaf nodes (the leaves `exampleHash` makes of the blocks
`[0]`, `[1]`, `[2]`), an odd-sized group. -/
def leaves3 : List Node :=
  [.mk .null .null [1] [0] false, .mk .null .null [2] [1] false,
   .mk .null .null [3] [2] false]

/-- Four concrete leaf nodes, an even-sized group of at least four. -/
def leaves4 : List Node :=
  [.mk .null .null [1] [0] false, .mk .null .null [2] [1] false,
   .mk .null .null [3] [2] false, .mk .null .null [4] [3] false]

/-! ## Basic lemmas about the embedded definitions -/

theorem pad_of_odd (ns : List Node) (h : ns.length % 2 = 1) :
    pad ns = ns ++ [(ns.getLastD .null).copy] := by
  simp [pad, h]

theorem pad_of_even (ns : List Node) (h : ns.length % 2 = 0) : pad ns = ns := by
  simp [pad, h]

theorem subset_pad (ns : List Node) : ns ⊆ pad ns := by
  unfold pad; split
  · exact List.subset_append_left ..
  · exact List.Subset.refl _

theorem getLastD_mem (ns : List Node) (h : ns ≠ []) : ns.getLastD .null ∈ ns := by
  rw [List.getLastD_eq_getLast?, List.getLast?_eq_getLast ns h]
  exact List.getLast_mem h

theorem mem_pad (ns : List Node) : ∀ x ∈ pad ns, x ∈ ns ∨ ∃ n ∈ ns, x = n.copy := by
  unfold pad; split
  · rename_i hodd
    intro x hx
    rcases List.mem_append.mp hx with h | h
    · exact Or.inl h
    · right
      refine ⟨ns.getLastD .null, getLastD_mem ns ?_, by simpa using h⟩
      rintro rfl; simp at hodd
  · exact fun x hx => Or.inl hx

theorem copy_value {n : Node} (h : n ≠ .null) : n.copy.value = n.value := by
  cases n with
  | null => exact absurd rfl h
  | mk l r v c d => rfl

theorem copy_content {n : Node} (h : n ≠ .null) : n.copy.content = n.content := by
  cases n with
  | null => exact absurd rfl h
  | mk l r v c d => rfl

theorem copy_left {n : Node} (h : n ≠ .null) : n.copy.left = n.left := by
  cases n with
  | null => exact absurd rfl h
  | mk l r v c d => rfl

theorem copy_right {n : Node} (h : n ≠ .null) : n.copy.right = n.right := by
  cases n with
  | null => exact absurd rfl h
  | mk l r v c d => rfl

theorem copy_is_copied {n : Node} (h : n ≠ .null) : n.copy.is_copied = true := by
  cases n with
  | null => exact absurd rfl h
  | mk l r v c d => rfl

theorem copy_ne_null {n : Node} (h : n ≠ .null) : n.copy ≠ .null := by
  cases n with
  | null => exact absurd rfl h
  | mk l r v c d => nofun

theorem isLeafNode_copy {L : Nat} {n : Node} (h : isLeafNode L n) :
    isLeafNode L n.copy := by
  obtain ⟨h1, h2, h3, h4⟩ := h
  exact ⟨by rw [copy_left h3, h1], by rw [copy_right h3, h2], copy_ne_null h3,
    by rw [copy_value h3]; exact h4⟩

theorem buildTreeRec_shape {H : HashFn} {ns : List Node} {t : Node}
    (h : buildTreeRec H ns = some t) : t.is_copied = false ∧ t ≠ .null := by
  rw [buildTreeRec] at h
  split at h
  · exact absurd h (by simp)
  · split at h
    · obtain ⟨v, _, ht⟩ := Option.map_eq_some'.mp h
      subst ht; exact ⟨rfl, nofun⟩
    · obtain ⟨lt, _, h⟩ := Option.bind_eq_some.mp h
      obtain ⟨rt, _, h⟩ := Option.bind_eq_some.mp h
      obtain ⟨v, _, ht⟩ := Option.map_eq_some'.mp h
      subst ht; exact ⟨rfl, nofun⟩

theorem wfNode_null (H : HashFn) (L : Nat) : wfNode H L .null := by
  rw [wfNode]; trivial

theorem wfNode_of_leaf {H : HashFn} {L : Nat} {n : Node} (h : isLeafNode L n) :
    wfNode H L n := by
  obtain ⟨h1, h2, h3, h4⟩ := h
  cases n with
  | null => exact absurd rfl h3
  | mk l r v c d =>
    simp only [Node.left] at h1
    simp only [Node.right] at h2
    exact ⟨h4, Or.inl ⟨h1, h2⟩, h1 ▸ wfNode_null H L, h2 ▸ wfNode_null H L⟩

theorem wfNode_value_length {H : HashFn} {L : Nat} {t : Node} (h : wfNode H L t)
    (hne : t ≠ .null) : t.value.length = L := by
  cases t with
  | null => exact absurd rfl hne
  | mk l r v c d => exact h.1

theorem leaves_of_leaf {L : Nat} {n : Node} (h : isLeafNode L n) : n.leaves = [n] := by
  obtain ⟨h1, h2, h3, _⟩ := h
  cases n with
  | null => exact absurd rfl h3
  | mk l r v c d =>
    simp only [Node.left] at h1
    simp only [Node.right] at h2
    simp [Node.leaves, h1, h2]

theorem self_mem_allNodes {t : Node} (h : t ≠ .null) : t ∈ t.allNodes := by
  cases t with
  | null => exact absurd rfl h
  | mk l r v c d => rw [Node.allNodes]; exact List.mem_cons_self ..

theorem allNodes_left_subset {l r : Node} {v c : List Nat} {d : Bool} :
    l.allNodes ⊆ (Node.mk l r v c d).allNodes := by
  rw [Node.allNodes]
  intro m hm
  exact List.mem_cons_of_mem _ (List.mem_append_left _ hm)

theorem allNodes_right_subset {l r : Node} {v c : List Nat} {d : Bool} :
    r.allNodes ⊆ (Node.mk l r v c d).allNodes := by
  rw [Node.allNodes]
  intro m hm
  exact List.mem_cons_of_mem _ (List.mem_append_right _ hm)

theorem leaves_subset_allNodes (t : Node) : t.leaves ⊆ t.allNodes := by
  induction t with
  | null => rw [Node.leaves]; exact List.nil_subset _
  | mk l r v c d ihl ihr =>
    rw [Node.leaves]
    split
    · intro m hm
      rw [List.mem_singleton] at hm
      subst hm
      exact self_mem_allNodes nofun
    · intro m hm
      rcases List.mem_append.mp hm with h | h
      · exact allNodes_left_subset (ihl h)
      · exact allNodes_right_subset (ihr h)

theorem wfNode_mem {H : HashFn} {L : Nat} {t m : Node} (hw : wfNode H L t)
    (hm : m ∈ t.allNodes) : wfNode H L m := by
  induction t with
  | null => rw [Node.allNodes] at hm; exact absurd hm (List.not_mem_nil m)
  | mk l r v c d ihl ihr =>
    rw [Node.allNodes] at hm
    rcases List.mem_cons.mp hm with rfl | hm
    · exact hw
    · rcases List.mem_append.mp hm with h | h
      · exact ihl hw.2.2.1 h
      · exact ihr hw.2.2.2 h

theorem mem_leaves_of_mem_allNodes {t m : Node} (hm : m ∈ t.allNodes)
    (hl : m.left = .null) (hr : m.right = .null) : m ∈ t.leaves := by
  induction t with
  | null => rw [Node.allNodes] at hm; exact absurd hm (List.not_mem_nil m)
  | mk l r v c d ihl ihr =>
    rw [Node.allNodes] at hm
    rw [Node.leaves]
    rcases List.mem_cons.mp hm with rfl | hm
    · simp only [Node.left] at hl
      simp only [Node.right] at hr
      rw [if_pos ⟨hl, hr⟩]
      exact List.mem_singleton.mpr rfl
    · split
      · rename_i hnull
        obtain ⟨rfl, rfl⟩ := hnull
        simp [Node.allNodes] at hm
      · rcases List.mem_append.mp hm with h | h
        · exact List.mem_append_left _ (ihl h)
        · exact List.mem_append_right _ (ihr h)

theorem mem_internalValues {t m : Node} (hm : m ∈ t.allNodes)
    (h : ¬(m.left = .null ∧ m.right = .null)) : m.value ∈ internalValues t := by
  unfold internalValues
  exact List.mem_map_of_mem _
    (List.mem_filter.mpr ⟨hm, by simp only [decide_eq_true_eq]; exact h⟩)

theorem internalValues_left_subset {l r : Node} {v c : List Nat} {d : Bool} :
    internalValues l ⊆ internalValues (Node.mk l r v c d) := by
  unfold internalValues
  intro x hx
  simp only [List.mem_map, List.mem_filter] at hx ⊢
  obtain ⟨m, ⟨hm, hcond⟩, rfl⟩ := hx
  exact ⟨m, ⟨allNodes_left_subset hm, hcond⟩, rfl⟩

theorem internalValues_right_subset {l r : Node} {v c : List Nat} {d : Bool} :
    internalValues r ⊆ internalValues (Node.mk l r v c d) := by
  unfold internalValues
  intro x hx
  simp only [List.mem_map, List.mem_filter] at hx ⊢
  obtain ⟨m, ⟨hm, hcond⟩, rfl⟩ := hx
  exact ⟨m, ⟨allNodes_right_subset hm, hcond⟩, rfl⟩

/-- The central builder invariant: on a non-empty list of well-formed leaf
nodes the recursive builder succeeds, produces a non-`null`, non-copied,
well-formed tree, every input node occurs among its leaves, and every leaf
carries the value and content of some input node. -/
theorem buildTreeRec_spec (H : HashFn) (L : Nat) (hH : ∀ x, (H x).length = L) :
    ∀ (N : Nat) (ns : List Node), ns.length ≤ N → ns ≠ [] →
      (∀ n ∈ ns, isLeafNode L n) →
      ∃ t, buildTreeRec H ns = some t ∧ t ≠ .null ∧ wfNode H L t ∧
        (∀ n ∈ ns, n ∈ t.leaves) ∧
        (∀ m ∈ t.leaves, ∃ n ∈ ns, m.value = n.value ∧ m.content = n.content) := by
  intro N
  induction N with
  | zero =>
    intro ns hlen hne _
    exact absurd (List.length_eq_zero.mp (Nat.le_zero.mp hlen)) hne
  | succ N ih =>
    intro ns hlen hne hleaf
    have hne0 : ¬ns.length = 0 := fun h => hne (List.length_eq_zero.mp h)
    have hpadgood : ∀ x ∈ pad ns, isLeafNode L x := by
      intro x hx
      rcases mem_pad ns x hx with h | ⟨n, hn, rfl⟩
      · exact hleaf x h
      · exact isLeafNode_copy (hleaf n hn)
    have hmatch : ∀ x ∈ pad ns, ∃ n ∈ ns, x.value = n.value ∧ x.content = n.content := by
      intro x hx
      rcases mem_pad ns x hx with h | ⟨n, hn, rfl⟩
      · exact ⟨x, h, rfl, rfl⟩
      · exact ⟨n, hn, copy_value (hleaf n hn).2.2.1, copy_content (hleaf n hn).2.2.1⟩
    have hplen : (pad ns).length = if ns.length % 2 = 1 then ns.length + 1
        else ns.length := by
      unfold pad; split <;> simp
    by_cases h2 : (pad ns).length = 2
    · obtain ⟨a, b, hab⟩ := List.length_eq_two.mp h2
      have ha : a ∈ pad ns := by rw [hab]; exact List.mem_cons_self ..
      have hb : b ∈ pad ns := by rw [hab]; simp
      have hga := hpadgood a ha
      have hgb := hpadgood b hb
      have hxor : bytes_xor a.value b.value = some (xorBytes a.value b.value) := by
        unfold bytes_xor
        rw [if_pos (by rw [hga.2.2.2, hgb.2.2.2])]
      have hlv : (Node.mk a b (H (xorBytes a.value b.value))
          (a.content ++ b.content) false).leaves = [a, b] := by
        rw [Node.leaves, if_neg (fun hc => hga.2.2.1 hc.1), leaves_of_leaf hga,
          leaves_of_leaf hgb]
        rfl
      refine ⟨.mk a b (H (xorBytes a.value b.value)) (a.content ++ b.content) false,
        ?_, nofun, ?_, ?_, ?_⟩
      · rw [buildTreeRec, dif_neg hne0, dif_pos h2, hab]
        simp only [List.getD_cons_zero, List.getD_cons_succ]
        rw [hxor]
        rfl
      · exact ⟨hH _, Or.inr ⟨hga.2.2.1, hgb.2.2.1, rfl, rfl⟩, wfNode_of_leaf hga,
          wfNode_of_leaf hgb⟩
      · intro n hn
        rw [hlv]
        have := subset_pad ns hn
        rw [hab] at this
        exact this
      · intro m hm
        rw [hlv] at hm
        rcases List.mem_cons.mp hm with rfl | hm
        · exact hmatch m ha
        · rw [List.mem_singleton] at hm
          subst hm
          exact hmatch m hb
    · have h1 : 1 ≤ ns.length := Nat.one_le_iff_ne_zero.mpr hne0
      have h4 : 4 ≤ (pad ns).length := by split at hplen <;> omega
      have hns3 : 3 ≤ ns.length := by split at hplen <;> omega
      have hple : (pad ns).length ≤ ns.length + 1 := by split at hplen <;> omega
      have hpeven : (pad ns).length % 2 = 0 := by split at hplen <;> omega
      have htl : ((pad ns).take ((pad ns).length / 2)).length = (pad ns).length / 2 := by
        rw [List.length_take]; omega
      have hdl : ((pad ns).drop ((pad ns).length / 2)).length = (pad ns).length / 2 := by
        rw [List.length_drop]; omega
      have hhalf : (pad ns).length / 2 ≤ N := by split at hplen <;> omega
      obtain ⟨lt, hlt, hltn, hltw, hltl1, hltl2⟩ :=
        ih ((pad ns).take ((pad ns).length / 2)) (by omega)
          (by intro hc; rw [hc] at htl; simp at htl; omega)
          (fun n hn => hpadgood n (List.take_subset _ _ hn))
      obtain ⟨rt, hrt, hrtn, hrtw, hrtl1, hrtl2⟩ :=
        ih ((pad ns).drop ((pad ns).length / 2)) (by omega)
          (by intro hc; rw [hc] at hdl; simp at hdl; omega)
          (fun n hn => hpadgood n (List.drop_subset _ _ hn))
      have hxor : bytes_xor lt.value rt.value = some (xorBytes lt.value rt.value) := by
        unfold bytes_xor
        rw [if_pos (by rw [wfNode_value_length hltw hltn, wfNode_value_length hrtw hrtn])]
      have hlv : (Node.mk lt rt (H (xorBytes lt.value rt.value))
          (lt.content ++ rt.content) false).leaves = lt.leaves ++ rt.leaves := by
        rw [Node.leaves, if_neg (fun hc => hltn hc.1)]
      refine ⟨.mk lt rt (H (xorBytes lt.value rt.value)) (lt.content ++ rt.content) false,
        ?_, nofun, ?_, ?_, ?_⟩
      · rw [buildTreeRec, dif_neg hne0, dif_neg h2, hlt, hrt]
        simp only [Option.some_bind]
        rw [hxor]
        rfl
      · exact ⟨hH _, Or.inr ⟨hltn, hrtn, rfl, rfl⟩, hltw, hrtw⟩
      · intro n hn
        rw [hlv]
        have hmem : n ∈ (pad ns).take ((pad ns).length / 2) ++
            (pad ns).drop ((pad ns).length / 2) := by
          rw [List.take_append_drop]
          exact subset_pad ns hn
        rcases List.mem_append.mp hmem with h | h
        · exact List.mem_append_left _ (hltl1 n h)
        · exact List.mem_append_right _ (hrtl1 n h)
      · intro m hm
        rw [hlv] at hm
        rcases List.mem_append.mp hm with h | h
        · obtain ⟨n', hn', hv, hc⟩ := hltl2 m h
          obtain ⟨n, hn, hv2, hc2⟩ := hmatch n' (List.take_subset _ _ hn')
          exact ⟨n, hn, hv.trans hv2, hc.trans hc2⟩
        · obtain ⟨n', hn', hv, hc⟩ := hrtl2 m h
          obtain ⟨n, hn, hv2, hc2⟩ := hmatch n' (List.drop_subset _ _ hn')
          exact ⟨n, hn, hv.trans hv2, hc.trans hc2⟩

theorem follow_nil (t : Node) : follow t [] = t := by cases t <;> rfl

theorem follow_null (p : List Nat) : follow .null p = .null := by cases p <;> rfl

theorem follow_cons (l r : Node) (v c : List Nat) (d : Bool) (bit : Nat)
    (rest : List Nat) :
    follow (.mk l r v c d) (bit :: rest) = follow (if bit = 0 then l else r) rest := rfl

theorem siblings_nil (t : Node) : siblings t [] = [] := by cases t <;> rfl

theorem siblings_cons (l r : Node) (v c : List Nat) (d : Bool) (bit : Nat)
    (rest : List Nat) :
    siblings (.mk l r v c d) (bit :: rest) =
      if bit = 0 then r.value :: siblings l rest else l.value :: siblings r rest := rfl

theorem xorBytes_comm (a b : List Nat) : xorBytes a b = xorBytes b a :=
  List.zipWith_comm_of_comm _ Nat.xor_comm a b

theorem get_location_rec_sound (target : List Nat) :
    ∀ (t : Node) (acc q : List Nat),
      get_location_rec t target acc = some q →
      ∃ p, q = acc ++ p ∧ (∀ b ∈ p, b = 0 ∨ b = 1) ∧ follow t p ≠ .null ∧
        (follow t p).value = target ∧ (follow t p).is_copied = false := by
  intro t
  induction t with
  | null => intro acc q h; rw [get_location_rec] at h; exact absurd h nofun
  | mk l r v c d ihl ihr =>
    intro acc q h
    rw [get_location_rec] at h
    by_cases hc : v = target ∧ d = false
    · rw [if_pos hc] at h
      refine ⟨[], by simpa using h.symm, by simp, ?_, hc.1, hc.2⟩
      rw [follow_nil]
      nofun
    · rw [if_neg hc] at h
      cases hL : get_location_rec l target (acc ++ [0]) with
      | some lres =>
        rw [hL] at h
        obtain ⟨p, hp, hbits, hne, hv, hd⟩ := ihl (acc ++ [0]) lres hL
        refine ⟨0 :: p, ?_, ?_, ?_, ?_, ?_⟩
        · rw [← Option.some.inj h]
          simpa [List.append_assoc] using hp
        · intro x hx
          rcases List.mem_cons.mp hx with rfl | hx
          · exact Or.inl rfl
          · exact hbits x hx
        · rw [follow_cons, if_pos rfl]; exact hne
        · rw [follow_cons, if_pos rfl]; exact hv
        · rw [follow_cons, if_pos rfl]; exact hd
      | none =>
        rw [hL] at h
        cases hR : get_location_rec r target (acc ++ [1]) with
        | some rres =>
          rw [hR] at h
          obtain ⟨p, hp, hbits, hne, hv, hd⟩ := ihr (acc ++ [1]) rres hR
          refine ⟨1 :: p, ?_, ?_, ?_, ?_, ?_⟩
          · rw [← Option.some.inj h]
            simpa [List.append_assoc] using hp
          · intro x hx
            rcases List.mem_cons.mp hx with rfl | hx
            · exact Or.inr rfl
            · exact hbits x hx
          · rw [follow_cons, if_neg one_ne_zero]; exact hne
          · rw [follow_cons, if_neg one_ne_zero]; exact hv
          · rw [follow_cons, if_neg one_ne_zero]; exact hd
        | none => rw [hR] at h; exact absurd h nofun

theorem get_location_rec_complete (target : List Nat) :
    ∀ (t : Node) (acc : List Nat),
      (∃ m ∈ t.allNodes, m.value = target ∧ m.is_copied = false) →
      ∃ q, get_location_rec t target acc = some q := by
  intro t
  induction t with
  | null =>
    intro acc hm
    obtain ⟨m, hm, _⟩ := hm
    simp [Node.allNodes] at hm
  | mk l r v c d ihl ihr =>
    intro acc hm
    obtain ⟨m, hm, hv, hd⟩ := hm
    rw [get_location_rec]
    by_cases hc : v = target ∧ d = false
    · exact ⟨acc, by rw [if_pos hc]⟩
    · rw [if_neg hc]
      rw [Node.allNodes] at hm
      rcases List.mem_cons.mp hm with rfl | hm
      · exact absurd ⟨hv, hd⟩ hc
      · rcases List.mem_append.mp hm with h | h
        · obtain ⟨q, hq⟩ := ihl (acc ++ [0]) ⟨m, h, hv, hd⟩
          exact ⟨q, by rw [hq]⟩
        · obtain ⟨q, hq⟩ := ihr (acc ++ [1]) ⟨m, h, hv, hd⟩
          cases hL : get_location_rec l target (acc ++ [0]) with
          | some lq => exact ⟨lq, rfl⟩
          | none => exact ⟨q, by rw [hq]⟩

theorem get_location_rec_not_found (target : List Nat) :
    ∀ (t : Node) (acc : List Nat),
      (∀ m ∈ t.allNodes, ¬(m.value = target ∧ m.is_copied = false)) →
      get_location_rec t target acc = none := by
  intro t
  induction t with
  | null => intro acc _; rw [get_location_rec]
  | mk l r v c d ihl ihr =>
    intro acc hm
    rw [get_location_rec]
    have hself := hm _ (self_mem_allNodes (t := .mk l r v c d) nofun)
    simp only [Node.value, Node.is_copied] at hself
    rw [if_neg hself]
    rw [ihl (acc ++ [0]) (fun m h => hm m (allNodes_left_subset h)),
      ihr (acc ++ [1]) (fun m h => hm m (allNodes_right_subset h))]

theorem fold_siblings (H : HashFn) (L : Nat) :
    ∀ (p : List Nat) (t : Node), wfNode H L t → (∀ b ∈ p, b = 0 ∨ b = 1) →
      follow t p ≠ .null →
      ((siblings t p).reverse).foldlM (fun cur sib => (bytes_xor cur sib).map H)
        ((follow t p).value) = some t.value := by
  intro p
  induction p with
  | nil =>
    intro t _ _ _
    rw [siblings_nil, follow_nil]
    rfl
  | cons bit rest ih =>
    intro t hw hbits hf
    cases t with
    | null => exact absurd (follow_null _) hf
    | mk l r v c d =>
      rcases hw.2.1 with ⟨hl, hr⟩ | ⟨hl, hr, hv, _⟩
      · subst hl; subst hr
        exact absurd (by rw [follow_cons]; split <;> exact follow_null _) hf
      · have hbx : bytes_xor l.value r.value = some (xorBytes l.value r.value) := by
          unfold bytes_xor
          rw [if_pos (by rw [wfNode_value_length hw.2.2.1 hl,
            wfNode_value_length hw.2.2.2 hr])]
        have hrestbits : ∀ b ∈ rest, b = 0 ∨ b = 1 :=
          fun b hb => hbits b (List.mem_cons_of_mem _ hb)
        by_cases hb : bit = 0
        · subst hb
          have hf' : follow l rest ≠ .null := by
            rw [follow_cons, if_pos rfl] at hf; exact hf
          rw [siblings_cons, if_pos rfl, follow_cons, if_pos rfl]
          rw [List.reverse_cons, List.foldlM_append]
          rw [ih l hw.2.2.1 hrestbits hf']
          show _ = some v
          rw [hv]
          simp only [List.foldlM_cons, List.foldlM_nil]
          simp
          exact ⟨_, hbx, rfl⟩
        · have hb1 : bit = 1 := by
            rcases hbits bit (List.mem_cons_self ..) with h | h
            · exact absurd h hb
            · exact h
          subst hb1
          have hf' : follow r rest ≠ .null := by
            rw [follow_cons, if_neg one_ne_zero] at hf; exact hf
          rw [siblings_cons, if_neg one_ne_zero, follow_cons, if_neg one_ne_zero]
          rw [List.reverse_cons, List.foldlM_append]
          rw [ih r hw.2.2.2 hrestbits hf']
          have hbx' : bytes_xor r.value l.value = some (xorBytes r.value l.value) := by
            unfold bytes_xor
            rw [if_pos (by rw [wfNode_value_length hw.2.2.1 hl,
              wfNode_value_length hw.2.2.2 hr])]
          show _ = some v
          rw [hv]
          simp only [List.foldlM_cons, List.foldlM_nil]
          simp
          exact ⟨_, hbx', by rw [xorBytes_comm r.value l.value]⟩

theorem getD_mem_of_lt {α : Type} (l : List α) (i : Nat) (d : α) (h : i < l.length) :
    l.getD i d ∈ l := by
  rw [List.getD_eq_getElem?_getD, List.getElem?_eq_getElem h]
  exact List.getElem_mem h

theorem get_proof_rec_ok (H : HashFn) (L : Nat) :
    ∀ (t : Node), wfNode H L t →
      ∀ (loc : List Nat) (index : Nat) (acc : List (List Nat)),
        (∀ b ∈ loc, b = 0 ∨ b = 1) →
        follow t (loc.drop index) ≠ .null →
        get_proof_rec t loc index acc = some (acc ++ siblings t (loc.drop index)) := by
  intro t
  induction t with
  | null =>
    intro _ loc index acc _ hf
    exact absurd (follow_null _) hf
  | mk l r v c d ihl ihr =>
    intro hw loc index acc hbits hf
    rw [get_proof_rec]
    by_cases hidx : loc.length ≤ index
    · rw [if_pos hidx, List.drop_eq_nil_of_le hidx, siblings_nil, List.append_nil]
    · rw [if_neg hidx]
      have hlt : index < loc.length := Nat.lt_of_not_le hidx
      have hdrop : loc.drop index = loc.getD index 0 :: loc.drop (index + 1) := by
        rw [List.drop_eq_getElem_cons hlt]
        congr 1
        rw [List.getD_eq_getElem?_getD, List.getElem?_eq_getElem hlt]
        rfl
      rw [hdrop] at hf ⊢
      rcases hw.2.1 with ⟨hl, hr⟩ | ⟨hl, hr, _, _⟩
      · subst hl; subst hr
        exact absurd (by rw [follow_cons]; split <;> exact follow_null _) hf
      · by_cases hb : loc.getD index 0 = 0
        · rw [if_pos ⟨hr, hb⟩]
          rw [ihl hw.2.2.1 loc (index + 1) (acc ++ [r.value]) hbits
            (by rw [follow_cons, if_pos hb] at hf; exact hf)]
          rw [siblings_cons, if_pos hb]
          simp
        · have hb1 : loc.getD index 0 = 1 := by
            rcases hbits _ (getD_mem_of_lt loc index 0 hlt) with h | h
            · exact absurd h hb
            · exact h
          rw [if_neg (fun hcc => hb hcc.2), if_pos ⟨hl, hb1⟩]
          rw [ihr hw.2.2.2 loc (index + 1) (acc ++ [l.value]) hbits
            (by rw [follow_cons, if_neg hb] at hf; exact hf)]
          rw [siblings_cons, if_neg hb]
          simp

/-- The leaf nodes `_buildTree` makes from a block list are well-formed. -/
theorem leavesGood (H : HashFn) (L : Nat) (hH : ∀ x, (H x).length = L)
    (blocks : List (List Nat)) :
    ∀ n ∈ blocks.map (fun e => Node.mk .null .null (H e) e false), isLeafNode L n := by
  intro n hn
  obtain ⟨e, _, rfl⟩ := List.mem_map.mp hn
  exact ⟨rfl, rfl, nofun, hH e⟩

/-- Round-trip membership, the workhorse behind several claims: on any tree
built from a non-empty block list with a fixed-output-length hash,
`get_proof` succeeds for every input block's hash and `verify_proof`
accepts the produced proof against the root value. -/
theorem round_trip_main (H : HashFn) (L : Nat) (blocks : List (List Nat)) (t : Node)
    (hH : ∀ x, (H x).length = L) (hne : blocks ≠ [])
    (ht : buildTree H blocks = some t) (b : List Nat) (hb : b ∈ blocks) :
    ∃ proof, get_proof t (H b) = some proof ∧
      verify_proof t.value (H b) proof H = some true := by
  obtain ⟨t', ht', htn, htw, hl1, _⟩ := buildTreeRec_spec H L hH
    (blocks.map (fun e => Node.mk .null .null (H e) e false)).length _ le_rfl
    (by simpa using hne) (leavesGood H L hH blocks)
  rw [buildTree] at ht
  have heq : t' = t := Option.some.inj (ht'.symm.trans ht)
  rw [heq] at htn htw hl1
  have hbleaf : (Node.mk .null .null (H b) b false) ∈ t.leaves :=
    hl1 _ (List.mem_map_of_mem _ hb)
  obtain ⟨q, hq⟩ := get_location_rec_complete (H b) t []
    ⟨_, leaves_subset_allNodes t hbleaf, rfl, rfl⟩
  obtain ⟨p, hp0, hbits, hfne, hfv, _⟩ := get_location_rec_sound (H b) t [] q hq
  rw [List.nil_append] at hp0
  subst hp0
  have hwalk := get_proof_rec_ok H L t htw q 0 [] hbits (by rw [List.drop_zero]; exact hfne)
  rw [List.drop_zero, List.nil_append] at hwalk
  refine ⟨siblings t q, ?_, ?_⟩
  · rw [get_proof, get_location, hq]
    exact hwalk
  · rw [verify_proof]
    have hfold := fold_siblings H L q t htw hbits hfne
    rw [hfv] at hfold
    rw [hfold]
    simp

theorem buildTree_tree1 : buildTree exampleHash [[5]] = some tree1 := by
  simp [buildTree, buildTreeRec, pad, bytes_xor, xorBytes, Node.value, Node.content,
    Node.copy, exampleHash, tree1]

theorem buildTree_tree2 : buildTree exampleHash [[0], [1]] = some tree2 := by
  simp [buildTree, buildTreeRec, pad, bytes_xor, xorBytes, Node.value, Node.content,
    Node.copy, exampleHash, tree2]

theorem buildTree_tree3 : buildTree exampleHash [[0], [1], [2]] = some tree3 := by
  simp [buildTree, buildTreeRec, pad, bytes_xor, xorBytes, Node.value, Node.content,
    Node.copy, exampleHash, tree3]

theorem exampleHash_length : ∀ x, (exampleHash x).length = 1 := fun _ => rfl

/-- Every folding step of `verify_proof` succeeds when the running hash and
all proof entries have the fixed hash output length. -/
theorem foldlM_total (H : HashFn) (L : Nat) (hH : ∀ x, (H x).length = L) :
    ∀ (sibs : List (List Nat)) (cur : List Nat), cur.length = L →
      (∀ s ∈ sibs, s.length = L) →
      ∃ res, sibs.foldlM (fun c s => (bytes_xor c s).map H) cur = some res := by
  intro sibs
  induction sibs with
  | nil => intro cur _ _; exact ⟨cur, rfl⟩
  | cons s rest ih =>
    intro cur hcur hall
    have hbx : bytes_xor cur s = some (xorBytes cur s) := by
      unfold bytes_xor
      rw [if_pos (hcur.trans (hall s (List.mem_cons_self ..)).symm)]
    obtain ⟨res, hres⟩ := ih (H (xorBytes cur s)) (hH _)
      (fun x hx => hall x (List.mem_cons_of_mem _ hx))
    refine ⟨res, ?_⟩
    rw [List.foldlM_cons, hbx]
    simpa using hres

/-- The search accumulator only prefixes the reported path. -/
theorem get_location_rec_acc (target : List Nat) :
    ∀ (t : Node) (acc : List Nat),
      get_location_rec t target acc =
        (get_location_rec t target []).map (fun p => acc ++ p) := by
  intro t
  induction t with
  | null => intro acc; rw [get_location_rec, get_location_rec]; rfl
  | mk l r v c d ihl ihr =>
    intro acc
    rw [get_location_rec, get_location_rec]
    by_cases hc : v = target ∧ d = false
    · rw [if_pos hc, if_pos hc]; simp
    · rw [if_neg hc, if_neg hc]
      rw [ihl (acc ++ [0]), ihr (acc ++ [1]), ihl ([] ++ [0]), ihr ([] ++ [1])]
      cases get_location_rec l target [] with
      | some lres => simp [List.append_assoc]
      | none =>
        cases get_location_rec r target [] with
        | some rres => simp [List.append_assoc]
        | none => simp

theorem getD_take_eq (l : List Node) (i n : Nat) (h : i < n) :
    (l.take n).getD i .null = l.getD i .null := by
  rw [List.getD_eq_getElem?_getD, List.getD_eq_getElem?_getD, List.getElem?_take]
  simp [h]

theorem getD_drop_eq (l : List Node) (i n : Nat) :
    (l.drop n).getD i .null = l.getD (n + i) .null := by
  rw [List.getD_eq_getElem?_getD, List.getD_eq_getElem?_getD, List.getElem?_drop]

theorem getD_map_leaf (H : HashFn) (blocks : List (List Nat)) (i : Nat)
    (h : i < blocks.length) :
    (blocks.map (fun e => Node.mk .null .null (H e) e false)).getD i .null =
      Node.mk .null .null (H (blocks.getD i [])) (blocks.getD i []) false := by
  rw [List.getD_eq_getElem?_getD, List.getElem?_map, List.getElem?_eq_getElem h,
    List.getD_eq_getElem?_getD, List.getElem?_eq_getElem h]
  rfl

/-- On a pairwise-distinct power-of-two leaf list without internal-value
collisions, the locator reports exactly the fixed-width binary encoding of
the leaf index. -/
theorem loc_pow2 (H : HashFn) (L : Nat) (hH : ∀ x, (H x).length = L) :
    ∀ (k : Nat), 1 ≤ k → ∀ (ns : List Node) (t : Node),
      ns.length = 2 ^ k →
      (∀ n ∈ ns, isLeafNode L n ∧ n.is_copied = false) →
      buildTreeRec H ns = some t →
      (∀ i j, i < ns.length → j < ns.length →
        (ns.getD i .null).value = (ns.getD j .null).value → i = j) →
      (∀ n ∈ ns, n.value ∉ internalValues t) →
      ∀ i, i < ns.length →
        get_location_rec t ((ns.getD i .null).value) [] = some (pathBits k i) := by
  intro k
  induction k with
  | zero => intro h; exact absurd h (by decide)
  | succ k ih =>
    intro _ ns t hlen hgood ht hdist hnc i hi
    by_cases hk0 : k = 0
    · subst hk0
      obtain ⟨a, bn, hab⟩ := List.length_eq_two.mp (by simpa using hlen)
      subst hab
      rw [buildTreeRec, dif_neg (by simp)] at ht
      have hpad : pad [a, bn] = [a, bn] := pad_of_even _ (by simp)
      rw [hpad, dif_pos (show _ = 2 by simp)] at ht
      simp only [List.getD_cons_zero, List.getD_cons_succ] at ht
      obtain ⟨w, hw, htt⟩ := Option.map_eq_some'.mp ht
      subst htt
      have hga := hgood a (by simp)
      have hgb := hgood bn (by simp)
      have hanull := hga.1.2.2.1
      have hbnull := hgb.1.2.2.1
      have hrootmem : (Node.mk a bn (H w) (a.content ++ bn.content) false).value ∈
          internalValues (Node.mk a bn (H w) (a.content ++ bn.content) false) :=
        mem_internalValues (self_mem_allNodes nofun) (fun hcc => hanull hcc.1)
      have hroot : ∀ n ∈ [a, bn],
          (H w) ≠ n.value := by
        intro n hn hc
        apply hnc n hn
        rw [← hc]
        exact hrootmem
      have hne01 : ¬a.value = bn.value := by
        intro hc
        have := hdist 0 1 (by simp) (by simp)
          (by simpa [List.getD_cons_zero, List.getD_cons_succ] using hc)
        exact absurd this (by decide)
      cases a with
      | null => exact absurd rfl hanull
      | mk la ra va ca da =>
        have hla : la = .null := hga.1.1
        have hra : ra = .null := hga.1.2.1
        have hda : da = false := hga.2
        subst hla; subst hra; subst hda
        cases bn with
        | null => exact absurd rfl hbnull
        | mk lb rb vb cb db =>
          have hlb : lb = .null := hgb.1.1
          have hrb : rb = .null := hgb.1.2.1
          have hdb : db = false := hgb.2
          subst hlb; subst hrb; subst hdb
          match i, hi with
          | 0, _ =>
            simp only [List.getD_cons_zero]
            rw [get_location_rec,
              if_neg (fun hc => hroot _ (by simp) hc.1)]
            rw [get_location_rec, if_pos ⟨rfl, rfl⟩]
            rfl
          | 1, _ =>
            simp only [List.getD_cons_zero, List.getD_cons_succ]
            rw [get_location_rec,
              if_neg (fun hc => hroot _ (by simp) hc.1)]
            rw [get_location_rec, if_neg (fun hc => hne01 hc.1)]
            rw [get_location_rec, get_location_rec]
            rw [get_location_rec, if_pos ⟨rfl, rfl⟩]
            rfl
    · have hk1' : 1 ≤ k := Nat.one_le_iff_ne_zero.mpr hk0
      have hk2 : 2 ≤ 2 ^ k := by
        calc 2 = 2 ^ 1 := rfl
        _ ≤ 2 ^ k := Nat.pow_le_pow_right (by omega) hk1'
      have hP : ns.length = 2 ^ k + 2 ^ k := by rw [hlen, pow_succ]; omega
      rw [buildTreeRec, dif_neg (by omega)] at ht
      have hpad : pad ns = ns := pad_of_even ns (by omega)
      rw [hpad, dif_neg (by omega)] at ht
      obtain ⟨lt, hlt, ht⟩ := Option.bind_eq_some.mp ht
      obtain ⟨rt, hrt, ht⟩ := Option.bind_eq_some.mp ht
      obtain ⟨w, hw, htt⟩ := Option.map_eq_some'.mp ht
      subst htt
      have hhalf : ns.length / 2 = 2 ^ k := by omega
      have htake_len : (ns.take (ns.length / 2)).length = 2 ^ k := by
        rw [List.length_take]; omega
      have hdrop_len : (ns.drop (ns.length / 2)).length = 2 ^ k := by
        rw [List.length_drop]; omega
      have hltn : lt ≠ .null := (buildTreeRec_shape hlt).2
      have hgood_t : ∀ n ∈ ns.take (ns.length / 2), isLeafNode L n ∧ n.is_copied = false :=
        fun n hn => hgood n (List.take_subset _ _ hn)
      have hgood_d : ∀ n ∈ ns.drop (ns.length / 2), isLeafNode L n ∧ n.is_copied = false :=
        fun n hn => hgood n (List.drop_subset _ _ hn)
      have hdist_t : ∀ i' j', i' < (ns.take (ns.length / 2)).length →
          j' < (ns.take (ns.length / 2)).length →
          ((ns.take (ns.length / 2)).getD i' .null).value =
            ((ns.take (ns.length / 2)).getD j' .null).value → i' = j' := by
        intro i' j' hi' hj' heq
        rw [htake_len] at hi' hj'
        rw [getD_take_eq ns i' _ (by omega), getD_take_eq ns j' _ (by omega)] at heq
        exact hdist i' j' (by omega) (by omega) heq
      have hdist_d : ∀ i' j', i' < (ns.drop (ns.length / 2)).length →
          j' < (ns.drop (ns.length / 2)).length →
          ((ns.drop (ns.length / 2)).getD i' .null).value =
            ((ns.drop (ns.length / 2)).getD j' .null).value → i' = j' := by
        intro i' j' hi' hj' heq
        rw [hdrop_len] at hi' hj'
        rw [getD_drop_eq, getD_drop_eq] at heq
        have := hdist (ns.length / 2 + i') (ns.length / 2 + j') (by omega) (by omega) heq
        omega
      have hnc_t : ∀ n ∈ ns.take (ns.length / 2), n.value ∉ internalValues lt := by
        intro n hn hc
        exact hnc n (List.take_subset _ _ hn) (internalValues_left_subset hc)
      have hnc_d : ∀ n ∈ ns.drop (ns.length / 2), n.value ∉ internalValues rt := by
        intro n hn hc
        exact hnc n (List.drop_subset _ _ hn) (internalValues_right_subset hc)
      have hrootmem : (Node.mk lt rt (H w) (lt.content ++ rt.content) false).value ∈
          internalValues (Node.mk lt rt (H w) (lt.content ++ rt.content) false) :=
        mem_internalValues (self_mem_allNodes nofun) (fun hcc => hltn hcc.1)
      have hroot_ne : ∀ n ∈ ns, (H w) ≠ n.value := by
        intro n hn hc
        apply hnc n hn
        rw [← hc]
        exact hrootmem
      have hmemi : ns.getD i .null ∈ ns := getD_mem_of_lt ns i .null (by omega)
      rw [get_location_rec, if_neg (fun hc => hroot_ne _ hmemi hc.1)]
      by_cases hcase : i < 2 ^ k
      · have hihl := ih hk1' (ns.take (ns.length / 2)) lt htake_len hgood_t hlt
          hdist_t hnc_t i (by omega)
        rw [getD_take_eq ns i _ (by omega)] at hihl
        have hleft : get_location_rec lt ((ns.getD i .null).value) ([] ++ [0]) =
            some (0 :: pathBits k i) := by
          rw [get_location_rec_acc, hihl]
          rfl
        rw [hleft]
        show some (0 :: pathBits k i) = some (pathBits (k + 1) i)
        rw [pathBits, Nat.div_eq_of_lt hcase, Nat.mod_eq_of_lt hcase]
      · obtain ⟨lt', hlt', _, _, _, hl2⟩ := buildTreeRec_spec H L hH
          (ns.take (ns.length / 2)).length _ le_rfl
          (by intro hcc; rw [hcc] at htake_len; simp at htake_len; omega)
          (fun n hn => (hgood_t n hn).1)
        have heql : lt' = lt := Option.some.inj (hlt'.symm.trans hlt)
        rw [heql] at hl2
        have hleft : get_location_rec lt ((ns.getD i .null).value) ([] ++ [0]) = none := by
          apply get_location_rec_not_found
          intro m hm hc
          by_cases hmleaf : m.left = .null ∧ m.right = .null
          · have hml : m ∈ lt.leaves := mem_leaves_of_mem_allNodes hm hmleaf.1 hmleaf.2
            obtain ⟨n', hn', hv', _⟩ := hl2 m hml
            obtain ⟨j, hj, hjv⟩ := List.mem_iff_getElem.mp hn'
            rw [htake_len] at hj
            have hn'j : n' = (ns.take (ns.length / 2)).getD j .null := by
              rw [List.getD_eq_getElem?_getD, List.getElem?_eq_getElem (by
                rw [htake_len]; omega)]
              exact hjv.symm
            rw [hn'j, getD_take_eq ns j _ (by omega)] at hv'
            have : j = i := hdist j i (by omega) (by omega) (by rw [← hv', ← hc.1])
            omega
          · apply hnc _ hmemi
            rw [← hc.1]
            exact internalValues_left_subset (mem_internalValues hm hmleaf)
        rw [hleft]
        have hihr := ih hk1' (ns.drop (ns.length / 2)) rt hdrop_len hgood_d hrt
          hdist_d hnc_d (i - 2 ^ k) (by omega)
        rw [getD_drop_eq] at hihr
        have hadd : ns.length / 2 + (i - 2 ^ k) = i := by omega
        rw [hadd] at hihr
        have hright : get_location_rec rt ((ns.getD i .null).value) ([] ++ [1]) =
            some (1 :: pathBits k (i - 2 ^ k)) := by
          rw [get_location_rec_acc, hihr]
          rfl
        rw [hright]
        show some (1 :: pathBits k (i - 2 ^ k)) = some (pathBits (k + 1) i)
        rw [pathBits]
        have hdiv : i / 2 ^ k = 1 := by
          have hrw : i = (i - 2 ^ k) + 2 ^ k := by omega
          rw [hrw, Nat.add_div_right _ (by omega : 0 < 2 ^ k),
            Nat.div_eq_of_lt (by omega)]
        have hmod : i % 2 ^ k = i - 2 ^ k := by
          rw [Nat.mod_eq_sub_mod (by omega : 2 ^ k ≤ i), Nat.mod_eq_of_lt (by omega)]
        rw [hdiv, hmod]

/-! ## Claim theorems -/

/-- C1: Round-trip membership. For every tree built from a non-empty block
list with a fixed-output-length hash function producing no collisions among
the tree's node values, and every block `b` of the list, `get_proof (H b)`
returns a proof and `verify_proof` accepts it against the root hash. -/
theorem claim_round_trip_membership (H : HashFn) (L : Nat) (blocks : List (List Nat))
    (t : Node) (hH : ∀ x, (H x).length = L) (hne : blocks ≠ [])
    (ht : buildTree H blocks = some t)
    (hnocol : (t.allNodes.map Node.value).Nodup)
    (b : List Nat) (hb : b ∈ blocks) :
    ∃ proof, get_proof t (H b) = some proof ∧
      verify_proof t.value (H b) proof H = some true :=
  round_trip_main H L blocks t hH hne ht b hb

theorem claim_round_trip_membership_witness :
    ∃ proof, get_proof tree2 (exampleHash [0]) = some proof ∧
      verify_proof tree2.value (exampleHash [0]) proof exampleHash = some true :=
  claim_round_trip_membership exampleHash 1 [[0], [1]] tree2 exampleHash_length
    (by decide) buildTree_tree2 (by decide) [0] (by decide)

/-- C2 (amended): `verify_proof` returns a definitive boolean for every
proof whose entries all have the fixed hash output length (the leaf hash
included), and in particular for the empty proof; a sibling whose length
differs from the running candidate hash instead trips the `bytes_xor`
length assert (modelled `none`) rather than returning `false`. -/
theorem claim_verify_total_on_wellformed (root_hash block_hash : List Nat)
    (proof : List (List Nat)) (H : HashFn) (L : Nat)
    (hH : ∀ x, (H x).length = L) (hbh : block_hash.length = L)
    (hproof : ∀ s ∈ proof, s.length = L) :
    (∃ res, verify_proof root_hash block_hash proof H = some res) ∧
    verify_proof root_hash block_hash [] H = some (decide (block_hash = root_hash)) := by
  constructor
  · obtain ⟨res, hres⟩ := foldlM_total H L hH proof.reverse block_hash hbh
      (fun s hs => hproof s (List.mem_reverse.mp hs))
    exact ⟨decide (res = root_hash), by rw [verify_proof, hres]; rfl⟩
  · rfl

theorem claim_verify_total_on_wellformed_witness :
    (∃ res, verify_proof [0] [1] [[2], [3]] exampleHash = some res) ∧
    verify_proof [0] [1] [] exampleHash = some (decide (([1] : List Nat) = [0])) :=
  claim_verify_total_on_wellformed [0] [1] [[2], [3]] exampleHash 1
    exampleHash_length rfl (by decide)

/-- C2 counterexample: a proof entry of length 1 against a leaf hash of
length 2 makes `verify_proof` hit the `bytes_xor` length assert (Python
raises `AssertionError`, modelled `none`): no boolean is returned, so
verification does not "never throw". -/
theorem claim_verify_never_throws_counterexample :
    verify_proof [0] [1, 2] [[9]] exampleHash = none := by decide

/-- C3: Negative membership. For a built tree and a hash value `h` that is
not the value of any tree node, `get_proof` reports not-found (`none`) and
`verify_proof` with the empty proof rejects `h` against the root hash. -/
theorem claim_negative_membership (H : HashFn) (blocks : List (List Nat)) (t : Node)
    (h : List Nat) (ht : buildTree H blocks = some t)
    (hh : ∀ m ∈ t.allNodes, m.value ≠ h) :
    get_proof t h = none ∧ verify_proof t.value h [] H = some false := by
  rw [buildTree] at ht
  have hs := buildTreeRec_shape ht
  constructor
  · rw [get_proof, get_location]
    rw [get_location_rec_not_found h t [] (fun m hm hc => hh m hm hc.1)]
  · have hneq : ¬(h = t.value) := fun hc => hh t (self_mem_allNodes hs.2) hc.symm
    show some (decide (h = t.value)) = some false
    rw [decide_eq_false hneq]

theorem claim_negative_membership_witness :
    get_proof tree2 [9] = none ∧ verify_proof tree2.value [9] [] exampleHash = some false :=
  claim_negative_membership exampleHash [[0], [1]] tree2 [9] buildTree_tree2 (by decide)

/-- C4 (amended): reordering the block list need not change the root hash:
because the combine step is the commutative byte-wise xor, swapping the two
blocks of a two-block list always produces the same root hash (for any hash
function). -/
theorem claim_two_block_swap_preserves_root (H : HashFn) (a b : List Nat) :
    (buildTree H [a, b]).map Node.value = (buildTree H [b, a]).map Node.value := by
  have key : ∀ x y : List Nat, buildTree H [x, y] =
      (bytes_xor (H x) (H y)).map fun v =>
        Node.mk (.mk .null .null (H x) x false) (.mk .null .null (H y) y false)
          (H v) (x ++ y) false := by
    intro x y
    rw [buildTree]
    show buildTreeRec H
      [Node.mk .null .null (H x) x false, Node.mk .null .null (H y) y false] = _
    rw [buildTreeRec]
    have hpad : pad [Node.mk .null .null (H x) x false, Node.mk .null .null (H y) y false]
        = [Node.mk .null .null (H x) x false, Node.mk .null .null (H y) y false] :=
      pad_of_even _ (by simp)
    rw [dif_neg (by simp), hpad, dif_pos (show _ = 2 by simp)]
    rfl
  rw [key a b, key b a]
  by_cases hlen : (H a).length = (H b).length
  · rw [show bytes_xor (H a) (H b) = some (xorBytes (H a) (H b)) from by
      unfold bytes_xor; rw [if_pos hlen]]
    rw [show bytes_xor (H b) (H a) = some (xorBytes (H b) (H a)) from by
      unfold bytes_xor; rw [if_pos hlen.symm]]
    rw [xorBytes_comm (H b) (H a)]
    rfl
  · rw [show bytes_xor (H a) (H b) = none from by
      unfold bytes_xor; rw [if_neg hlen]]
    rw [show bytes_xor (H b) (H a) = none from by
      unfold bytes_xor; rw [if_neg (fun hc => hlen hc.symm)]]
    rfl

/-- C4 counterexample: `[[1],[0]]` is a non-identity reordering of
`[[0],[1]]`, yet both lists build to the same root hash under
`exampleHash`, because the xor combine is commutative. -/
theorem claim_reorder_changes_root_counterexample :
    [[1], [0]] ≠ [[0], [1]] ∧ ([[0], [1]] : List (List Nat)).Perm [[1], [0]] ∧
    (buildTree exampleHash [[0], [1]]).map Node.value =
      (buildTree exampleHash [[1], [0]]).map Node.value := by
  refine ⟨by decide, by decide, ?_⟩
  rw [buildTree_tree2]
  have h2 : buildTree exampleHash [[1], [0]] = some (.mk (.mk .null .null [2] [1] false)
      (.mk .null .null [1] [0] false) [4] [1, 0] false) := by
    simp [buildTree, buildTreeRec, pad, bytes_xor, xorBytes, Node.value, Node.content,
      Node.copy, exampleHash]
  rw [h2]
  rfl

/-- C5: Node invariants of built trees: every internal node's value is the
hash of the xor of its children's values (which have equal length, so the
xor assert passes) and its content is the children's contents concatenated
left-to-right; every leaf carries `H b` and `b` for some input block `b`. -/
theorem claim_node_invariants (H : HashFn) (L : Nat) (blocks : List (List Nat)) (t : Node)
    (hH : ∀ x, (H x).length = L) (hne : blocks ≠ [])
    (ht : buildTree H blocks = some t) (m : Node) (hm : m ∈ t.allNodes) :
    (¬(m.left = .null ∧ m.right = .null) →
      bytes_xor m.left.value m.right.value = some (xorBytes m.left.value m.right.value) ∧
      m.value = H (xorBytes m.left.value m.right.value) ∧
      m.content = m.left.content ++ m.right.content) ∧
    ((m.left = .null ∧ m.right = .null) → ∃ b ∈ blocks, m.value = H b ∧ m.content = b) := by
  obtain ⟨t', ht', _, htw, _, hl2⟩ := buildTreeRec_spec H L hH
    (blocks.map (fun e => Node.mk .null .null (H e) e false)).length _ le_rfl
    (by simpa using hne) (leavesGood H L hH blocks)
  rw [buildTree] at ht
  have heq : t' = t := Option.some.inj (ht'.symm.trans ht)
  rw [heq] at htw hl2
  have hwm : wfNode H L m := wfNode_mem htw hm
  constructor
  · intro hint
    cases m with
    | null => exact absurd ⟨rfl, rfl⟩ hint
    | mk l r v c d =>
      show bytes_xor l.value r.value = some (xorBytes l.value r.value) ∧
        v = H (xorBytes l.value r.value) ∧ c = l.content ++ r.content
      rcases hwm.2.1 with ⟨hl, hr⟩ | ⟨hl, hr, hv, hc⟩
      · exact absurd ⟨hl, hr⟩ hint
      · refine ⟨?_, hv, hc⟩
        unfold bytes_xor
        rw [if_pos (by rw [wfNode_value_length hwm.2.2.1 hl,
          wfNode_value_length hwm.2.2.2 hr])]
  · intro hleafm
    have hml : m ∈ t.leaves := mem_leaves_of_mem_allNodes hm hleafm.1 hleafm.2
    obtain ⟨n, hn, hv, hc⟩ := hl2 m hml
    obtain ⟨e, he, rfl⟩ := List.mem_map.mp hn
    exact ⟨e, he, hv, hc⟩

theorem claim_node_invariants_witness :
    bytes_xor tree3.left.value tree3.right.value =
      some (xorBytes tree3.left.value tree3.right.value) ∧
    tree3.value = exampleHash (xorBytes tree3.left.value tree3.right.value) ∧
    tree3.content = tree3.left.content ++ tree3.right.content :=
  (claim_node_invariants exampleHash 1 [[0], [1], [2]] tree3 exampleHash_length
    (by decide) buildTree_tree3 tree3 (by decide)).1 (by decide)

/-- C6: Re-entrant padding. At any recursive invocation, an odd-sized group
is extended by a field-wise copy of its last element with the duplicate
flag forced true and the same value and content (so building the group
equals building the group with the copy appended), and an even-sized group
of at least four is split at its midpoint into two halves of equal length,
each built recursively and then combined. -/
theorem claim_reentrant_padding (H : HashFn) (ns : List Node)
    (hodd : ns.length % 2 = 1) (hnn : ns.getLastD .null ≠ .null) :
    buildTreeRec H ns = buildTreeRec H (ns ++ [(ns.getLastD .null).copy]) ∧
    (ns.getLastD .null).copy.is_copied = true ∧
    (ns.getLastD .null).copy.value = (ns.getLastD .null).value ∧
    (ns.getLastD .null).copy.content = (ns.getLastD .null).content ∧
    (∀ ms : List Node, ms.length % 2 = 0 → 4 ≤ ms.length →
      (ms.take (ms.length / 2)).length = (ms.drop (ms.length / 2)).length ∧
      buildTreeRec H ms =
        (buildTreeRec H (ms.take (ms.length / 2))).bind fun lt =>
          (buildTreeRec H (ms.drop (ms.length / 2))).bind fun rt =>
            (bytes_xor lt.value rt.value).map fun v =>
              Node.mk lt rt (H v) (lt.content ++ rt.content) false) := by
  have hne0 : ¬ns.length = 0 := by omega
  refine ⟨?_, copy_is_copied hnn, copy_value hnn, copy_content hnn, ?_⟩
  · have hpad1 : pad ns = ns ++ [(ns.getLastD .null).copy] := pad_of_odd ns hodd
    have hpad2 : pad (ns ++ [(ns.getLastD .null).copy]) =
        ns ++ [(ns.getLastD .null).copy] :=
      pad_of_even _ (by simp; omega)
    have hne0' : ¬(ns ++ [(ns.getLastD .null).copy]).length = 0 := by
      simp
    conv_lhs => rw [buildTreeRec, dif_neg hne0, hpad1]
    conv_rhs => rw [buildTreeRec, dif_neg hne0', hpad2]
  · intro ms hev h4
    have h0 : ¬ms.length = 0 := by omega
    have hpadm : pad ms = ms := pad_of_even ms hev
    have h2 : ¬(pad ms).length = 2 := by rw [hpadm]; omega
    constructor
    · rw [List.length_take, List.length_drop]; omega
    · conv_lhs => rw [buildTreeRec, dif_neg h0, dif_neg h2, hpadm]

theorem claim_reentrant_padding_witness :
    buildTreeRec exampleHash leaves3 =
      buildTreeRec exampleHash (leaves3 ++ [(leaves3.getLastD .null).copy]) ∧
    (leaves3.getLastD .null).copy.is_copied = true ∧
    (leaves3.getLastD .null).copy.value = (leaves3.getLastD .null).value ∧
    (leaves3.getLastD .null).copy.content = (leaves3.getLastD .null).content ∧
    ((leaves4.take (leaves4.length / 2)).length =
      (leaves4.drop (leaves4.length / 2)).length ∧


      buildTreeRec exampleHash leaves4 =
        (buildTreeRec exampleHash (leaves4.take (leaves4.length / 2))).bind fun lt =>
          (buildTreeRec exampleHash (leaves4.drop (leaves4.length / 2))).bind fun rt =>
            (bytes_xor lt.value rt.value).map fun v =>
              Node.mk lt rt (exampleHash v) (lt.content ++ rt.content) false) := by
  have h := claim_reentrant_padding exampleHash leaves3 (by decide) (by decide)
  exact ⟨h.1, h.2.1, h.2.2.1, h.2.2.2.1,
    (claim_reentrant_padding exampleHash leaves3 (by decide) (by decide)).2.2.2.2
      leaves4 (by decide) (by decide)⟩

/-- C7: Duplicate exclusion. `get_location` only ever returns a path to a
non-copied node whose value is the target hash (so a synthesized duplicate
is never returned as a location); the search prefers a hit in the left
subtree; and a tree built from an odd number of blocks still yields a
verifying proof for every original block. -/
theorem claim_duplicate_exclusion :
    (∀ (t : Node) (target p : List Nat),
        get_location t target = some p →
        follow t p ≠ .null ∧ (follow t p).value = target ∧
          (follow t p).is_copied = false) ∧
    (∀ (l r : Node) (v c : List Nat) (d : Bool) (target acc q : List Nat),
        ¬(v = target ∧ d = false) →
        get_location_rec l target (acc ++ [0]) = some q →
        get_location_rec (.mk l r v c d) target acc = some q) ∧
    (∀ (H : HashFn) (L : Nat) (blocks : List (List Nat)) (t : Node),
        (∀ x, (H x).length = L) → blocks.length % 2 = 1 →
        buildTree H blocks = some t →
        ∀ b ∈ blocks, ∃ proof, get_proof t (H b) = some proof ∧
          verify_proof t.value (H b) proof H = some true) := by
  refine ⟨?_, ?_, ?_⟩
  · intro t target p hp
    obtain ⟨p', hp', _, hne, hv, hd⟩ := get_location_rec_sound target t [] p hp
    rw [List.nil_append] at hp'
    subst hp'
    exact ⟨hne, hv, hd⟩
  · intro l r v c d target acc q hnm hq
    rw [get_location_rec, if_neg hnm, hq]
  · intro H L blocks t hH hodd ht b hb
    refine round_trip_main H L blocks t hH ?_ ht b hb
    rintro rfl
    simp at hodd

theorem claim_duplicate_exclusion_witness :
    (follow tree3 [1, 0] ≠ .null ∧ (follow tree3 [1, 0]).value = [3] ∧
      (follow tree3 [1, 0]).is_copied = false) ∧
    get_location_rec tree2 [1] [] = some [0] ∧
    (∃ proof, get_proof tree3 (exampleHash [2]) = some proof ∧
      verify_proof tree3.value (exampleHash [2]) proof exampleHash = some true) :=
  ⟨claim_duplicate_exclusion.1 tree3 [3] [1, 0] (by decide),
    claim_duplicate_exclusion.2.1 (.mk .null .null [1] [0] false)
      (.mk .null .null [2] [1] false) [4] [0, 1] false [1] [] [0]
      (by decide) (by decide),
    claim_duplicate_exclusion.2.2 exampleHash 1 [[0], [1], [2]] tree3
      exampleHash_length (by decide) buildTree_tree3 [2] (by decide)⟩

/-- C8 (amended): Path correctness for at least two blocks. For a tree
built from `n = 2 ^ k` blocks with `k ≥ 1`, pairwise distinct block hashes
and no block hash colliding with an internal node value,
`get_location (H block_i)` is exactly the `k`-bit fixed-width binary
representation of `i`, most significant bit first, read as direction bits
(`0` = left, `1` = right).  (For `k = 0` the claim fails: the single block
is padded, the root is internal, and the location is `[0]`, not the empty
width-0 encoding.) -/
theorem claim_path_bits (H : HashFn) (L k : Nat) (blocks : List (List Nat)) (t : Node)
    (hH : ∀ x, (H x).length = L) (hk : 1 ≤ k) (hlen : blocks.length = 2 ^ k)
    (hdist : ∀ i j, i < blocks.length → j < blocks.length →
      H (blocks.getD i []) = H (blocks.getD j []) → i = j)
    (ht : buildTree H blocks = some t)
    (hnc : ∀ b ∈ blocks, H b ∉ internalValues t)
    (i : Nat) (hi : i < blocks.length) :
    get_location t (H (blocks.getD i [])) = some (pathBits k i) := by
  rw [get_location]
  have hres := loc_pow2 H L hH k hk
    (blocks.map fun e => Node.mk .null .null (H e) e false) t
    (by simpa using hlen)
    (by
      intro n hn
      obtain ⟨e, _, rfl⟩ := List.mem_map.mp hn
      exact ⟨⟨rfl, rfl, nofun, hH e⟩, rfl⟩)
    (by rw [buildTree] at ht; exact ht)
    (by
      intro i' j' hi' hj' heq
      rw [List.length_map] at hi' hj'
      rw [getD_map_leaf H blocks i' hi', getD_map_leaf H blocks j' hj'] at heq
      exact hdist i' j' hi' hj' heq)
    (by
      intro n hn
      obtain ⟨e, he, rfl⟩ := List.mem_map.mp hn
      exact hnc e he)
    i (by simpa using hi)
  rw [getD_map_leaf H blocks i hi] at hres
  exact hres

theorem claim_path_bits_witness :
    get_location tree2 (exampleHash ([[0], [1]].getD 1 [])) = some (pathBits 1 1) :=
  claim_path_bits exampleHash 1 1 [[0], [1]] tree2 exampleHash_length (by decide)
    (by decide)
    (by
      intro i j hi hj h
      simp only [List.length_cons, List.length_nil] at hi hj
      interval_cases i <;> interval_cases j <;> revert h <;> decide)
    buildTree_tree2 (by decide) 1 (by decide)

/-- C8 counterexample: one block is `2 ^ 0` blocks, its hash is trivially
collision-free with the internal values of its tree, yet the locator
returns `[0]` (the padded tree's left leaf), not the empty 0-bit encoding
of index 0. -/
theorem claim_path_bits_counterexample :
    buildTree exampleHash [[5]] = some tree1 ∧
    exampleHash [5] ∉ internalValues tree1 ∧
    get_location tree1 (exampleHash [5]) = some [0] ∧
    pathBits 0 0 = [] :=
  ⟨buildTree_tree1, by decide, by decide, rfl⟩

/-- C9 (amended): the proof-generation walk returns `none` whenever the
sibling to record for the next direction bit is absent at the current node
(for builder trees this coincides with the implied child being absent); a
path produced by `get_location` on a built tree never makes the walk fail.
`get_proof` however reports not-found and a failed walk with the same
`none`, so the two outcomes are not distinctly signaled. -/
theorem claim_malformed_path_walk :
    (∀ (l r : Node) (v c : List Nat) (d : Bool) (loc : List Nat) (index : Nat)
        (acc : List (List Nat)), index < loc.length →
        ((loc.getD index 0 = 0 ∧ r = .null) ∨ (loc.getD index 0 = 1 ∧ l = .null)) →
        get_proof_rec (.mk l r v c d) loc index acc = none) ∧
    (∀ (H : HashFn) (L : Nat) (blocks : List (List Nat)) (t : Node) (target p : List Nat),
        (∀ x, (H x).length = L) → buildTree H blocks = some t →
        get_location t target = some p →
        ∃ pr, get_proof_rec t p 0 [] = some pr) := by
  constructor
  · intro l r v c d loc index acc hidx hcase
    rw [get_proof_rec, if_neg (not_le.mpr hidx)]
    rcases hcase with ⟨hbit, rfl⟩ | ⟨hbit, rfl⟩
    · rw [if_neg (fun hc => hc.1 rfl),
        if_neg (fun hc => by rw [hbit] at hc; exact absurd hc.2 (by decide))]
    · rw [if_neg (fun hc => by rw [hbit] at hc; exact absurd hc.2 (by decide)),
        if_neg (fun hc => hc.1 rfl)]
  · intro H L blocks t target p hH ht hp
    have hne : blocks ≠ [] := by
      rintro rfl
      rw [buildTree, buildTreeRec] at ht
      simp at ht
    obtain ⟨t', ht', _, htw, _, _⟩ := buildTreeRec_spec H L hH
      (blocks.map (fun e => Node.mk .null .null (H e) e false)).length _ le_rfl
      (by simpa using hne) (leavesGood H L hH blocks)
    rw [buildTree] at ht
    have heq : t' = t := Option.some.inj (ht'.symm.trans ht)
    rw [heq] at htw
    obtain ⟨p', hp', hbits, hfne, _, _⟩ := get_location_rec_sound target t [] p hp
    rw [List.nil_append] at hp'
    subst hp'
    have hwalk := get_proof_rec_ok H L t htw p 0 [] hbits
      (by rw [List.drop_zero]; exact hfne)
    rw [List.drop_zero, List.nil_append] at hwalk
    exact ⟨siblings t p, hwalk⟩

theorem claim_malformed_path_walk_witness :
    get_proof_rec (.mk (.mk .null .null [1] [0] false) .null [9] [] false) [0] 0 [] =
      none ∧
    (∃ pr, get_proof_rec tree2 [0] 0 [] = some pr) :=
  ⟨claim_malformed_path_walk.1 (.mk .null .null [1] [0] false) .null [9] [] false
      [0] 0 [] (by decide) (Or.inl ⟨rfl, rfl⟩),
    claim_malformed_path_walk.2 exampleHash 1 [[0], [1]] tree2 [1] [0]
      exampleHash_length buildTree_tree2 (by decide)⟩

/-- C9 counterexample to distinct signaling: on the same built tree, a
query for an absent hash and a proof-generation walk on a malformed
(out-of-range) path both produce the very same result `none`; the
malformed-path failure is not signaled distinctly from not-found. -/
theorem claim_distinct_signal_counterexample :
    get_proof tree2 [9] = none ∧ get_proof_rec tree2 [0, 0] 0 [] = none := by decide

/-- C10: the `root` property returns a copy of the internal root with the
same children, value and content but with `is_copied` always true, while
the internal root of any built tree has `is_copied = false`. -/
theorem claim_root_accessor_flag (H : HashFn) (blocks : List (List Nat)) (t : Node)
    (ht : buildTree H blocks = some t) :
    (root t).left = t.left ∧ (root t).right = t.right ∧ (root t).value = t.value ∧
    (root t).content = t.content ∧ (root t).is_copied = true ∧ t.is_copied = false := by
  rw [buildTree] at ht
  have hs := buildTreeRec_shape ht
  exact ⟨copy_left hs.2, copy_right hs.2, copy_value hs.2, copy_content hs.2,
    copy_is_copied hs.2, hs.1⟩

theorem claim_root_accessor_flag_witness :
    (root tree2).left = tree2.left ∧ (root tree2).right = tree2.right ∧
    (root tree2).value = tree2.value ∧ (root tree2).content = tree2.content ∧
    (root tree2).is_copied = true ∧ tree2.is_copied = false :=
  claim_root_accessor_flag exampleHash [[0], [1]] tree2 buildTree_tree2

end MerkleTree
